import Mathlib

/-!
Verification of the spectral-analysis core of the Overtone Analyzer
(`overtone_analyzer.py`).

The band-analysis layer (`band_energy`, `summarize_bands`,
`estimate_fundamental`) is embedded polymorphically over a linear ordered
field: instantiated at `ℚ` it is computable (so concrete runs can be settled
by `decide`), and instantiated at `ℝ` it composes with the spectral layer.
A spectrum is modelled as a list of `(frequency, power)` pairs — the Python
code carries two NumPy arrays `f`, `Pxx` indexed in lockstep, and every
operation it performs (boolean-mask selection, `np.trapezoid`, `np.argmax`)
acts on both arrays through the same index set.
-/

namespace Overtone

section BandLayer

variable {α : Type*} [LinearOrderedField α]

/-- `np.trapezoid(Pxx[idx], f[idx])`: trapezoidal integration of the power
column against the frequency column, `Σ (f₂ - f₁) * (p₁ + p₂) / 2` over
adjacent pairs.  A list with fewer than two points integrates to `0`. -/
def trapezoid : List (α × α) → α
  | a :: b :: rest => (b.1 - a.1) * (a.2 + b.2) / 2 + trapezoid (b :: rest)
  | _ => 0

/-- The index selection `np.where((f >= f_lo) & (f < f_hi))[0]` of
`band_energy`, applied to both columns at once. -/
def bandSelect (spec : List (α × α)) (f_lo f_hi : α) : List (α × α) :=
  spec.filter (fun s => decide (f_lo ≤ s.1 ∧ s.1 < f_hi))

/-- `band_energy(f, Pxx, f_lo, f_hi)` from `overtone_analyzer.py` lines
100–105: select samples with `f_lo ≤ f < f_hi`; return `0.0` when the
selection is empty, else its trapezoidal integral. -/
def band_energy (spec : List (α × α)) (f_lo f_hi : α) : α :=
  let sel := bandSelect spec f_lo f_hi
  if sel.isEmpty then 0 else trapezoid sel

/-- One row of the `out` list built by `summarize_bands` (lines 121–125).
The display-name string is irrelevant to every numeric claim and is
omitted. -/
structure BandSummary (α : Type*) where
  lo_hz : α
  hi_hz : α
  energy : α
  pct : α
  deriving Repr, DecidableEq

/-- `summarize_bands(f, Pxx, air_lo, air_hi)` from lines 107–126: mask out
`f < 20`, integrate the rest for the total, substitute `1e-12` when that
total is `≤ 0`, then emit Bass (60–250), Formant (400–1500) and the
configurable overtones band, each with `pct = 100 * e / total`.  Returns
the summary rows together with the (possibly substituted) total; the
source additionally returns its `bands` list of `(name, lo, hi)` triples,
a duplicate of the edges already present in every summary row, omitted
here along with the display-name strings. -/
def summarize_bands (spec : List (α × α)) (air_lo air_hi : α) :
    List (BandSummary α) × α :=
  let masked := spec.filter (fun s => decide ((20 : α) ≤ s.1))
  let total0 := trapezoid masked
  let total := if total0 ≤ 0 then 1 / 10 ^ 12 else total0
  let bands : List (α × α) := [(60, 250), (400, 1500), (air_lo, air_hi)]
  (bands.map (fun b =>
    let e := band_energy spec b.1 b.2
    ⟨b.1, b.2, e, 100 * e / total⟩), total)

/-- First maximum of a `(frequency, power)` list by power: returns the pair
`np.argmax` would pick (the earliest pair attaining the maximal power).
Used to embed `sub_f[np.argmax(sub_p)]`. -/
def firstMax : List (α × α) → Option (α × α)
  | [] => none
  | a :: rest =>
    match firstMax rest with
    | none => some a
    | some b => some (if a.2 < b.2 then b else a)

/-- `estimate_fundamental(f, Pxx, lo, hi)` from lines 128–135: select
samples with `lo ≤ f ≤ hi` (closed interval); `None` when the selection is
empty or the maximal power in it is `≤ 0`, else the frequency of the first
maximal-power sample.  `firstMax` returns the pair `np.argmax(sub_p)`
points at, and its power is exactly `sub_p.max()`
(lemma `firstMax_is_max` below), so the `sub_p.max() <= 0` test of the
source is the test on that pair's power. -/
def estimate_fundamental (spec : List (α × α)) (lo hi : α) : Option α :=
  let sel := spec.filter (fun s => decide (lo ≤ s.1 ∧ s.1 ≤ hi))
  match firstMax sel with
  | none => none
  | some m => if m.2 ≤ 0 then none else some m.1

end BandLayer

/-! The spectral layer (`compute_psd`, lines 79–98) works over `ℝ`/`ℂ`.
The primary estimator is `scipy.signal.welch`, an external library call:
it is modelled as an abstract strategy function (`WelchFn`) supplied when
the capability is available, so that theorems can talk about the exact
arguments the source passes to it.  The fallback estimator is embedded in
full. -/

/-- `np.hanning(M)` evaluated at index `i`: `0.5 - 0.5*cos(2*pi*i/(M-1))`,
with NumPy's special case `hanning(1) = [1]`. -/
noncomputable def hanning (M : ℕ) (i : ℕ) : ℝ :=
  if M = 1 then 1 else 1 / 2 - 1 / 2 * Real.cos (2 * Real.pi * i / ((M : ℝ) - 1))

/-- The `while n_fft < n: n_fft <<= 1` loop of the fallback path (lines
91–93).  The source enters it with `n_fft = 1`; the `0 < acc` guard only
makes the recursion well-founded and never fires on that entry value. -/
def nfftLoop (n : ℕ) (acc : ℕ) : ℕ :=
  if h : acc < n ∧ 0 < acc then nfftLoop n (2 * acc) else acc
termination_by n - acc
decreasing_by omega

/-- `n_fft` as the source computes it: start at 1 and double while below
the signal length. -/
def n_fft (n : ℕ) : ℕ := nfftLoop n 1

/-- `y[:n] * win` read at index `m`, extended by zero past the signal end —
this is exactly how `np.fft.rfft(·, n=n_fft)` sees the windowed signal
after zero-padding. -/
noncomputable def winSig (y : List ℝ) (m : ℕ) : ℝ :=
  y.getD m 0 * hanning y.length m

/-- Bin `k` of the length-`N` real FFT of the (implicitly zero-padded)
sequence `x`: `Σ_{m<N} x_m · e^{-2πi·k·m/N}`. -/
noncomputable def rfftBin (x : ℕ → ℝ) (N : ℕ) (k : ℕ) : ℂ :=
  ∑ m ∈ Finset.range N, (x m : ℂ) *
    Complex.exp (-(2 * Real.pi * Complex.I * k * m / N))

/-- `np.sum(win**2)` for the length-`n` Hann window. -/
noncomputable def winSumSq (n : ℕ) : ℝ := ∑ i ∈ Finset.range n, hanning n i ^ 2

/-- Power bin `k` of the fallback path: `|Y_k|² / (Σ win² · sr)` (line 96),
with Lean's total division (which returns `0` on a zero denominator; the
IEEE-faithful refinement is `fallback_Pxx_ieee`). -/
noncomputable def fallback_Pxx (y : List ℝ) (sr : ℝ) (k : ℕ) : ℝ :=
  Complex.normSq (rfftBin (winSig y) (n_fft y.length) k) /
    (winSumSq y.length * sr)

/-- `np.fft.rfftfreq(n_fft, d=1/sr)` at index `k`: `k * sr / n_fft`. -/
noncomputable def fallback_freq (sr : ℝ) (N : ℕ) (k : ℕ) : ℝ := k * sr / N

/-- The whole fallback estimator (lines 89–98): one-sided bins
`k = 0 .. n_fft/2`. -/
noncomputable def compute_psd_fallback (y : List ℝ) (sr : ℝ) :
    List ℝ × List ℝ :=
  let N := n_fft y.length
  ((List.range (N / 2 + 1)).map (fallback_freq sr N),
   (List.range (N / 2 + 1)).map (fallback_Pxx y sr))

/-- IEEE-754 float division produces a non-finite value (NaN or ±Inf)
exactly when the denominator here is zero (the numerator `|Y_k|²` is
always finite); `none` models that non-finite outcome. -/
noncomputable def finiteDiv (num den : ℝ) : Option ℝ :=
  if den = 0 then none else some (num / den)

/-- Power bin `k` of the fallback path with the IEEE behaviour of the
division made explicit: `none` means NumPy would produce NaN/Inf. -/
noncomputable def fallback_Pxx_ieee (y : List ℝ) (sr : ℝ) (k : ℕ) : Option ℝ :=
  finiteDiv (Complex.normSq (rfftBin (winSig y) (n_fft y.length) k))
    (winSumSq y.length * sr)

/-- `y = y - np.mean(y)` (line 81): DC removal before either estimator. -/
noncomputable def demean (y : List ℝ) : List ℝ :=
  y.map (fun v => v - y.sum / y.length)

/-- The `window=` argument vocabulary relevant to the call site. -/
inductive WindowKind
  | hann
  | boxcar
  deriving DecidableEq

/-- The `detrend=` argument vocabulary relevant to the call site. -/
inductive DetrendKind
  | constant
  | linear
  deriving DecidableEq

/-- The `scaling=` argument vocabulary relevant to the call site. -/
inductive ScalingKind
  | density
  | spectrum
  deriving DecidableEq

/-- The argument record `compute_psd` hands to `scipy.signal.welch`. -/
structure WelchParams where
  nperseg : ℕ
  noverlap : ℕ
  window : WindowKind
  detrend : DetrendKind
  scaling : ScalingKind
  deriving DecidableEq

/-- Abstract type of the external `scipy.signal.welch` estimator: the
library is not part of this repository, so theorems about the primary path
are about what the source passes to it and that its result is returned
unchanged. -/
def WelchFn : Type := List ℝ → ℝ → WelchParams → List ℝ × List ℝ

/-- The argument computation of lines 84–87:
`nperseg = min(len(y), 8192)`, then `nperseg = max(nperseg, 256)`,
`noverlap = nperseg // 2`, Hann window, constant detrend, spectrum
scaling. -/
def welchArgs (n : ℕ) : WelchParams :=
  let np := max (min n 8192) 256
  ⟨np, np / 2, .hann, .constant, .spectrum⟩

/-- `compute_psd(y, sr)` (lines 79–98): demean, then use the primary
(Welch) strategy when available, else the FFT fallback.  The
`try/except ImportError`-style capability probe is modelled by the
`Option WelchFn` argument. -/
noncomputable def compute_psd (welch : Option WelchFn) (y : List ℝ) (sr : ℝ) :
    List ℝ × List ℝ :=
  let yd := demean y
  match welch with
  | some w => w yd sr (welchArgs yd.length)
  | none => compute_psd_fallback yd sr

/-- Error vocabulary of the spec (§7).  `emptySignal` is part of the
model's vocabulary so the spec's claim about it can be stated;
`fileNotFound` and `unreadableAudio` arise before the analysis portion
modelled by `run_analysis`. -/
inductive PipeError
  | fileNotFound
  | unreadableAudio
  | emptySignal
  deriving DecidableEq

/-- The values `main` computes from the decoded samples (lines 182–187). -/
structure AnalysisOutput where
  duration : ℝ
  freqs : List ℝ
  power : List ℝ
  bands : List (BandSummary ℝ)
  total : ℝ
  fundamental : Option ℝ

/-- The analysis portion of `main` (lines 182–187), starting right after
`read_audio` returns: `duration = len(y)/sr`, then `compute_psd`, then
`summarize_bands`, then `estimate_fundamental` — with no emptiness check
of any kind between decode and PSD. -/
noncomputable def run_analysis (welch : Option WelchFn) (y : List ℝ) (sr : ℝ)
    (air_lo air_hi : ℝ) : Except PipeError AnalysisOutput :=
  let duration := (y.length : ℝ) / sr
  let fP := compute_psd welch y sr
  let spec := fP.1.zip fP.2
  let st := summarize_bands spec air_lo air_hi
  let f0 := estimate_fundamental spec 60 300
  .ok ⟨duration, fP.1, fP.2, st.1, st.2, f0⟩

/-- Written from the claim's words for C7: "the smallest power of two ≥ n",
as a literal minimisation. -/
def nextPow2 (n : ℕ) : ℕ :=
  2 ^ Nat.find (⟨n, Nat.le_of_lt (Nat.lt_two_pow n)⟩ : ∃ k, n ≤ 2 ^ k)

/-- Written from the claim's words for C7: the signal multiplied by a Hann
window of its own length, as a list. -/
noncomputable def windowedList (y : List ℝ) : List ℝ :=
  (List.range y.length).map (fun m => y.getD m 0 * hanning y.length m)

/-- Written from the claim's words for C7: the windowed signal zero-padded
up to length `N`. -/
noncomputable def paddedWindowed (y : List ℝ) (N : ℕ) : List ℝ :=
  windowedList y ++ List.replicate (N - y.length) 0

/-- Written from the claim's words for C7: DFT bin `k` of an explicit list,
taken at the list's own length. -/
noncomputable def dftBin (x : List ℝ) (k : ℕ) : ℂ :=
  ∑ m ∈ Finset.range x.length, (x.getD m 0 : ℂ) *
    Complex.exp (-(2 * Real.pi * Complex.I * k * m / x.length))

/-- Written from the claim's words for C7: zero-pad to the smallest power
of two ≥ n, multiply by a Hann window of length n, take the one-sided real
FFT at the padded length, return squared magnitudes over
`(sum of squared window values × sample rate)`. -/
noncomputable def claim_fallback (y : List ℝ) (sr : ℝ) : List ℝ × List ℝ :=
  let N := nextPow2 y.length
  ((List.range (N / 2 + 1)).map (fun k : ℕ => (k : ℝ) * sr / (N : ℝ)),
   (List.range (N / 2 + 1)).map (fun k : ℕ =>
     Complex.normSq (dftBin (paddedWindowed y N) k) / (winSumSq y.length * sr)))

/-- The `scipy.io.wavfile` decode of a 16-bit integer PCM sample (lines
35–37): divide by `np.iinfo(np.int16).max = 32767`. -/
noncomputable def scipyDecode16 (v : ℤ) : ℝ := (v : ℝ) / 32767

/-- The `wave` fallback decode of a 16-bit PCM sample (lines 58–59):
divide by `32768.0`. -/
noncomputable def waveDecode16 (v : ℤ) : ℝ := (v : ℝ) / 32768

/-- Root-mean-square difference of the two decodings of one 16-bit PCM
sample stream. -/
noncomputable def rmsDiff (l : List ℤ) : ℝ :=
  Real.sqrt ((l.map (fun v => (scipyDecode16 v - waveDecode16 v) ^ 2)).sum /
    l.length)

end Overtone

namespace Overtone

/-! Helper lemmas about the band layer. -/

theorem band_energy_eq_trapezoid {α : Type*} [LinearOrderedField α]
    (spec : List (α × α)) (f_lo f_hi : α) :
    band_energy spec f_lo f_hi = trapezoid (bandSelect spec f_lo f_hi) := by
  unfold band_energy
  cases h : bandSelect spec f_lo f_hi <;> simp [h, trapezoid]

theorem trapezoid_zero_powers {α : Type*} [LinearOrderedField α] :
    ∀ (l : List (α × α)), (∀ s ∈ l, s.2 = 0) → trapezoid l = 0 := by
  intro l
  induction l with
  | nil => intro _; rfl
  | cons a rest ih =>
    intro hz
    cases rest with
    | nil => rfl
    | cons b r =>
      have ha : a.2 = 0 := hz a (List.mem_cons_self _ _)
      have hb : b.2 = 0 := hz b (List.mem_cons_of_mem _ (List.mem_cons_self _ _))
      have hr : trapezoid (b :: r) = 0 :=
        ih (fun s hs => hz s (List.mem_cons_of_mem _ hs))
      simp [trapezoid, ha, hb, hr]

/-! Basic facts about `firstMax`. -/

theorem firstMax_eq_none_iff {α : Type*} [LinearOrderedField α]
    (l : List (α × α)) : firstMax l = none ↔ l = [] := by
  cases l with
  | nil => simp [firstMax]
  | cons a rest =>
    simp only [firstMax]
    cases h : firstMax rest <;> simp

theorem firstMax_mem_and_max {α : Type*} [LinearOrderedField α] :
    ∀ (l : List (α × α)) (m : α × α), firstMax l = some m →
      m ∈ l ∧ ∀ x ∈ l, x.2 ≤ m.2 := by
  intro l
  induction l with
  | nil => intro m h; simp [firstMax] at h
  | cons a rest ih =>
    intro m h
    simp only [firstMax] at h
    cases hr : firstMax rest with
    | none =>
      rw [hr] at h
      have hre : rest = [] := (firstMax_eq_none_iff rest).mp hr
      subst hre
      simp at h
      subst h
      simp
    | some b =>
      rw [hr] at h
      have hb := ih b hr
      simp only [Option.some_inj] at h
      by_cases hab : a.2 < b.2
      · rw [if_pos hab] at h
        subst h
        refine ⟨List.mem_cons_of_mem _ hb.1, ?_⟩
        intro x hx
        rcases List.mem_cons.mp hx with hx | hx
        · exact hx ▸ le_of_lt hab
        · exact hb.2 x hx
      · rw [if_neg hab] at h
        subst h
        refine ⟨List.mem_cons_self _ _, ?_⟩
        intro x hx
        rcases List.mem_cons.mp hx with hx | hx
        · exact hx ▸ le_refl _
        · exact le_trans (hb.2 x hx) (not_lt.mp hab)

/-- C1: band membership is half-open.  `band_energy`'s selection keeps
exactly the samples with `low_hz ≤ f < high_hz`; a sample sitting exactly on
the shared edge `m` of two adjacent bands `[lo, m)` and `[m, hi)` is selected
by the upper band and not by the lower one; no sample is selected by both
adjacent bands; and the lower band's energy is entirely independent of the
samples at the shared edge. -/
theorem band_membership_half_open (spec : List (ℚ × ℚ)) (lo m hi : ℚ)
    (s : ℚ × ℚ) (hs : s ∈ spec) (hf : s.1 = m) (hm : m < hi) :
    (∀ t, t ∈ bandSelect spec lo m ↔ t ∈ spec ∧ lo ≤ t.1 ∧ t.1 < m) ∧
    s ∈ bandSelect spec m hi ∧
    s ∉ bandSelect spec lo m ∧
    (∀ t ∈ spec, ¬(t ∈ bandSelect spec lo m ∧ t ∈ bandSelect spec m hi)) ∧
    band_energy (spec.filter (fun t => decide (t.1 ≠ m))) lo m =
      band_energy spec lo m := by
  refine ⟨?_, ?_, ?_, ?_, ?_⟩
  · intro t
    simp [bandSelect, List.mem_filter, and_assoc]
  · simp only [bandSelect, List.mem_filter, decide_eq_true_eq]
    exact ⟨hs, le_of_eq hf.symm, hf.symm ▸ hm⟩
  · simp only [bandSelect, List.mem_filter, decide_eq_true_eq]
    intro hcon
    exact absurd (hf ▸ hcon.2.2) (lt_irrefl m)
  · intro t _ hcon
    simp only [bandSelect, List.mem_filter, decide_eq_true_eq] at hcon
    exact absurd (hcon.1.2.2.trans_le hcon.2.2.1) (lt_irrefl t.1)
  · rw [band_energy_eq_trapezoid, band_energy_eq_trapezoid]
    congr 1
    unfold bandSelect
    rw [List.filter_filter]
    apply List.filter_congr
    intro t _
    by_cases h : lo ≤ t.1 ∧ t.1 < m
    · simp [h, ne_of_lt h.2]
    · simp [h]

theorem band_membership_half_open_witness :
    ((250 : ℚ), (5 : ℚ)) ∈
      bandSelect [((100 : ℚ), (1 : ℚ)), (250, 5), (300, 2)] 250 400 ∧
    ((250 : ℚ), (5 : ℚ)) ∉
      bandSelect [((100 : ℚ), (1 : ℚ)), (250, 5), (300, 2)] 60 250 := by
  have h := band_membership_half_open
    [((100 : ℚ), (1 : ℚ)), (250, 5), (300, 2)] 60 250 400 (250, 5)
    (by simp) rfl (by norm_num)
  exact ⟨h.2.1, h.2.2.1⟩

/-- C10: a band that captures exactly one spectrum sample has trapezoidal
energy `0` — `np.trapezoid` over a single point is `0` — and therefore its
`pct` in the summary (the third, configurable band here) is `0`, whatever
the sample's power. -/
theorem single_sample_band_energy_zero (spec : List (ℚ × ℚ))
    (air_lo air_hi : ℚ) (s : ℚ × ℚ)
    (h : bandSelect spec air_lo air_hi = [s]) :
    band_energy spec air_lo air_hi = 0 ∧
    (summarize_bands spec air_lo air_hi).1[2]? =
      some ⟨air_lo, air_hi, 0, 0⟩ := by
  have he : band_energy spec air_lo air_hi = 0 := by
    rw [band_energy_eq_trapezoid, h]; rfl
  refine ⟨he, ?_⟩
  simp [summarize_bands, he]

theorem single_sample_band_energy_zero_witness :
    band_energy [((3000 : ℚ), 999999)] 2000 8000 = 0 ∧
    (summarize_bands [((3000 : ℚ), 999999)] 2000 8000).1[2]? =
      some ⟨2000, 8000, 0, 0⟩ :=
  single_sample_band_energy_zero [((3000 : ℚ), 999999)] 2000 8000
    (3000, 999999)
    (by norm_num [bandSelect, List.filter_cons, List.filter_nil])

/-- C4: `summarize_bands` is division-safe.  The total it divides by is
always strictly positive (when the trapezoidal integral over `f ≥ 20` is
`≤ 0` the code substitutes `1e-12`), and on an all-zero-power spectrum every
band row comes back with `energy = 0` and `pct = 0` — finite values, no
exception path exists. -/
theorem summarize_bands_silence_safe (spec : List (ℚ × ℚ))
    (air_lo air_hi : ℚ) :
    0 < (summarize_bands spec air_lo air_hi).2 ∧
    ((∀ s ∈ spec, s.2 = 0) →
      ∀ b ∈ (summarize_bands spec air_lo air_hi).1,
        b.energy = 0 ∧ b.pct = 0) := by
  constructor
  · have e2 : (summarize_bands spec air_lo air_hi).2 =
        if trapezoid (spec.filter (fun s => decide ((20 : ℚ) ≤ s.1))) ≤ 0
        then 1 / 10 ^ 12
        else trapezoid (spec.filter (fun s => decide ((20 : ℚ) ≤ s.1))) := rfl
    rw [e2]
    split_ifs with h
    · norm_num
    · exact lt_of_not_le h
  · intro hz b hb
    have hzero : ∀ lo hi : ℚ, band_energy spec lo hi = 0 := by
      intro lo hi
      rw [band_energy_eq_trapezoid]
      exact trapezoid_zero_powers _
        (fun s hs => hz s (List.mem_of_mem_filter hs))
    simp only [summarize_bands, List.map_cons, List.map_nil,
      List.mem_cons, List.not_mem_nil, or_false] at hb
    rcases hb with hb | hb | hb <;>
      · subst hb
        refine ⟨hzero _ _, ?_⟩
        simp [hzero]

theorem summarize_bands_silence_safe_witness :
    0 < (summarize_bands [((100 : ℚ), 0), (200, 0)] 2000 8000).2 ∧
    (∀ b ∈ (summarize_bands [((100 : ℚ), 0), (200, 0)] 2000 8000).1,
      b.energy = 0 ∧ b.pct = 0) := by
  have h := summarize_bands_silence_safe [((100 : ℚ), 0), (200, 0)] 2000 8000
  exact ⟨h.1, h.2 (by simp)⟩

/-- C3: `estimate_fundamental` returns `None` (an absent `Option` value,
never a numeric sentinel) precisely when every sample inside the closed
window `[lo, hi]` has power `≤ 0` — which covers both "no sample in the
window" (vacuously) and "maximum power in the window `≤ 0`" — and any
returned value is exactly the frequency of a maximum-power sample of the
window, with no interpolation. -/
theorem estimate_fundamental_none_iff_peak (spec : List (ℚ × ℚ))
    (lo hi : ℚ) :
    (estimate_fundamental spec lo hi = none ↔
      ∀ s ∈ spec, lo ≤ s.1 → s.1 ≤ hi → s.2 ≤ 0) ∧
    (∀ x, estimate_fundamental spec lo hi = some x →
      ∃ s ∈ spec, s.1 = x ∧ lo ≤ s.1 ∧ s.1 ≤ hi ∧ 0 < s.2 ∧
        ∀ t ∈ spec, lo ≤ t.1 → t.1 ≤ hi → t.2 ≤ s.2) := by
  set sel := spec.filter (fun s => decide (lo ≤ s.1 ∧ s.1 ≤ hi)) with hsel
  have hmem : ∀ t : ℚ × ℚ, t ∈ sel ↔ t ∈ spec ∧ lo ≤ t.1 ∧ t.1 ≤ hi := by
    intro t
    simp [hsel, List.mem_filter, and_assoc]
  cases h : firstMax sel with
  | none =>
    have e : estimate_fundamental spec lo hi = none := by
      simp only [estimate_fundamental, ← hsel, h]
    have hempty : sel = [] := (firstMax_eq_none_iff sel).mp h
    constructor
    · rw [e]
      simp only [true_iff]
      intro s hs h1 h2
      exact absurd ((hmem s).mpr ⟨hs, h1, h2⟩) (hempty ▸ List.not_mem_nil s)
    · intro x hx
      rw [e] at hx
      exact absurd hx (Option.noConfusion)
  | some m =>
    have e : estimate_fundamental spec lo hi =
        if m.2 ≤ 0 then none else some m.1 := by
      simp only [estimate_fundamental, ← hsel, h]
    obtain ⟨hm_mem, hm_max⟩ := firstMax_mem_and_max sel m h
    obtain ⟨hm_spec, hm_lo, hm_hi⟩ := (hmem m).mp hm_mem
    by_cases hp : m.2 ≤ 0
    · rw [if_pos hp] at e
      constructor
      · rw [e]
        simp only [true_iff]
        intro s hs h1 h2
        exact le_trans (hm_max s ((hmem s).mpr ⟨hs, h1, h2⟩)) hp
      · intro x hx
        rw [e] at hx
        exact absurd hx (Option.noConfusion)
    · rw [if_neg hp] at e
      constructor
      · rw [e]
        refine iff_of_false (by simp) ?_
        intro hall
        exact hp (hall m hm_spec hm_lo hm_hi)
      · intro x hx
        rw [e] at hx
        refine ⟨m, hm_spec, Option.some_inj.mp hx, hm_lo, hm_hi,
          not_le.mp hp, ?_⟩
        intro t ht h1 h2
        exact hm_max t ((hmem t).mpr ⟨ht, h1, h2⟩)

theorem estimate_fundamental_none_iff_peak_witness :
    (estimate_fundamental ([] : List (ℚ × ℚ)) 60 300 = none) ∧
    (∃ s ∈ [((100 : ℚ), (5 : ℚ)), (120, 9), (500, 50)], s.1 = 120 ∧
      (60 : ℚ) ≤ s.1 ∧ s.1 ≤ 300 ∧ 0 < s.2 ∧
      ∀ t ∈ [((100 : ℚ), (5 : ℚ)), (120, 9), (500, 50)],
        (60 : ℚ) ≤ t.1 → t.1 ≤ 300 → t.2 ≤ s.2) := by
  constructor
  · exact (estimate_fundamental_none_iff_peak [] 60 300).1.mpr (by simp)
  · refine (estimate_fundamental_none_iff_peak
      [((100 : ℚ), (5 : ℚ)), (120, 9), (500, 50)] 60 300).2 120 ?_
    norm_num [estimate_fundamental, firstMax, List.filter_cons,
      List.filter_nil]

/-! Lemmas for C2: on a frequency-sorted spectrum with non-negative powers,
the trapezoidal integral of an interval selection is bounded by the
integral of the whole list, and selections of disjoint intervals use
disjoint sets of adjacent pairs. -/

theorem trapezoid_nonneg :
    ∀ l : List (ℚ × ℚ), l.Pairwise (fun a b => a.1 ≤ b.1) →
      (∀ s ∈ l, 0 ≤ s.2) → 0 ≤ trapezoid l := by
  intro l
  induction l with
  | nil => intro _ _; simp [trapezoid]
  | cons a rest ih =>
    intro hs hp
    cases rest with
    | nil => simp [trapezoid]
    | cons b r =>
      have hab : a.1 ≤ b.1 :=
        (List.pairwise_cons.mp hs).1 b (List.mem_cons_self _ _)
      have ha2 : 0 ≤ a.2 := hp a (List.mem_cons_self _ _)
      have hb2 : 0 ≤ b.2 :=
        hp b (List.mem_cons_of_mem _ (List.mem_cons_self _ _))
      have h2 : 0 ≤ trapezoid (b :: r) :=
        ih (List.pairwise_cons.mp hs).2
          (fun s hx => hp s (List.mem_cons_of_mem _ hx))
      have h1 : 0 ≤ (b.1 - a.1) * (a.2 + b.2) / 2 := by
        apply div_nonneg _ (by norm_num)
        exact mul_nonneg (by linarith) (by linarith)
      have e : trapezoid (a :: b :: r) =
          (b.1 - a.1) * (a.2 + b.2) / 2 + trapezoid (b :: r) := rfl
      rw [e]
      linarith

theorem trapezoid_append_ge (ys : List (ℚ × ℚ)) :
    ∀ xs : List (ℚ × ℚ),
      (xs ++ ys).Pairwise (fun a b => a.1 ≤ b.1) →
      (∀ s ∈ xs ++ ys, 0 ≤ s.2) →
      trapezoid xs + trapezoid ys ≤ trapezoid (xs ++ ys) := by
  intro xs
  induction xs with
  | nil => intro _ _; simp [trapezoid]
  | cons a xs ih =>
    intro hs hp
    cases xs with
    | nil =>
      cases ys with
      | nil => simp [trapezoid]
      | cons b r =>
        have e1 : trapezoid (([a] : List (ℚ × ℚ)) ++ b :: r) =
            (b.1 - a.1) * (a.2 + b.2) / 2 + trapezoid (b :: r) := rfl
        have e0 : trapezoid [a] = 0 := rfl
        have hab : a.1 ≤ b.1 := (List.pairwise_cons.mp hs).1 b (by simp)
        have ha2 : 0 ≤ a.2 := hp a (by simp)
        have hb2 : 0 ≤ b.2 := hp b (by simp)
        have hterm : 0 ≤ (b.1 - a.1) * (a.2 + b.2) / 2 := by
          apply div_nonneg _ (by norm_num)
          exact mul_nonneg (by linarith) (by linarith)
        rw [e1, e0]
        linarith
    | cons c xs' =>
      have e1 : trapezoid ((a :: c :: xs') ++ ys) =
          (c.1 - a.1) * (a.2 + c.2) / 2 + trapezoid ((c :: xs') ++ ys) := rfl
      have e2 : trapezoid (a :: c :: xs') =
          (c.1 - a.1) * (a.2 + c.2) / 2 + trapezoid (c :: xs') := rfl
      have ih' := ih (List.pairwise_cons.mp hs).2
        (fun s hx => hp s (List.mem_cons_of_mem _ hx))
      rw [e1, e2]
      linarith

theorem filter_lt_eq_takeWhile (hi : ℚ) :
    ∀ l : List (ℚ × ℚ), l.Pairwise (fun a b => a.1 ≤ b.1) →
      l.filter (fun s => decide (s.1 < hi)) =
        l.takeWhile (fun s => decide (s.1 < hi)) := by
  intro l
  induction l with
  | nil => intro _; rfl
  | cons a rest ih =>
    intro hs
    by_cases h : a.1 < hi
    · have hd : decide (a.1 < hi) = true := decide_eq_true h
      simp only [List.filter_cons, List.takeWhile_cons, hd, if_true]
      exact congrArg (List.cons a) (ih (List.pairwise_cons.mp hs).2)
    · have hd : decide (a.1 < hi) = false := decide_eq_false h
      simp only [List.filter_cons, List.takeWhile_cons, hd,
        Bool.false_eq_true, if_false]
      apply List.filter_eq_nil_iff.mpr
      intro x hx
      have hax : a.1 ≤ x.1 := (List.pairwise_cons.mp hs).1 x hx
      simp only [decide_eq_true_eq]
      intro hlt
      exact h (lt_of_le_of_lt hax hlt)

theorem filter_ge_eq_dropWhile (lo : ℚ) :
    ∀ l : List (ℚ × ℚ), l.Pairwise (fun a b => a.1 ≤ b.1) →
      l.filter (fun s => decide (lo ≤ s.1)) =
        l.dropWhile (fun s => decide (s.1 < lo)) := by
  intro l
  induction l with
  | nil => intro _; rfl
  | cons a rest ih =>
    intro hs
    by_cases h : a.1 < lo
    · have hd1 : decide (a.1 < lo) = true := decide_eq_true h
      have hd2 : decide (lo ≤ a.1) = false := decide_eq_false (not_le.mpr h)
      simp only [List.filter_cons, List.dropWhile_cons, hd1, hd2,
        Bool.false_eq_true, if_false, if_true]
      exact ih (List.pairwise_cons.mp hs).2
    · have hd1 : decide (a.1 < lo) = false := decide_eq_false h
      have hd2 : decide (lo ≤ a.1) = true := decide_eq_true (not_lt.mp h)
      simp only [List.filter_cons, List.dropWhile_cons, hd1, hd2,
        Bool.false_eq_true, if_false, if_true]
      apply congrArg (List.cons a)
      apply List.filter_eq_self.mpr
      intro x hx
      have hax : a.1 ≤ x.1 := (List.pairwise_cons.mp hs).1 x hx
      simp only [decide_eq_true_eq]
      exact le_trans (not_lt.mp h) hax

theorem mem_dropWhile_ge (c : ℚ) :
    ∀ l : List (ℚ × ℚ), l.Pairwise (fun a b => a.1 ≤ b.1) →
      ∀ x ∈ l.dropWhile (fun s => decide (s.1 < c)), c ≤ x.1 := by
  intro l
  induction l with
  | nil => intro _ x hx; simp at hx
  | cons a rest ih =>
    intro hs x hx
    by_cases h : a.1 < c
    · rw [List.dropWhile_cons, if_pos (decide_eq_true h)] at hx
      exact ih (List.pairwise_cons.mp hs).2 x hx
    · rw [List.dropWhile_cons,
        if_neg (by simp [decide_eq_false h])] at hx
      rcases List.mem_cons.mp hx with hx | hx
      · exact hx ▸ not_lt.mp h
      · exact le_trans (not_lt.mp h) ((List.pairwise_cons.mp hs).1 x hx)

theorem bandSelect_eq_take_drop (lo hi : ℚ) (l : List (ℚ × ℚ))
    (hs : l.Pairwise (fun a b => a.1 ≤ b.1)) :
    bandSelect l lo hi =
      (l.dropWhile (fun s => decide (s.1 < lo))).takeWhile
        (fun s => decide (s.1 < hi)) := by
  rw [← filter_ge_eq_dropWhile lo l hs,
    ← filter_lt_eq_takeWhile hi _ (hs.sublist (List.filter_sublist l))]
  unfold bandSelect
  rw [List.filter_filter]
  apply List.filter_congr
  intro a _
  by_cases h1 : lo ≤ a.1 <;> by_cases h2 : a.1 < hi <;> simp [h1, h2]

theorem trapezoid_takeWhile_le (p : ℚ × ℚ → Bool) (l : List (ℚ × ℚ))
    (hs : l.Pairwise (fun a b => a.1 ≤ b.1)) (hp : ∀ s ∈ l, 0 ≤ s.2) :
    trapezoid (l.takeWhile p) ≤ trapezoid l := by
  have happ := trapezoid_append_ge (l.dropWhile p) (l.takeWhile p)
    (by rw [List.takeWhile_append_dropWhile]; exact hs)
    (by rw [List.takeWhile_append_dropWhile]; exact hp)
  rw [List.takeWhile_append_dropWhile] at happ
  have hd : 0 ≤ trapezoid (l.dropWhile p) :=
    trapezoid_nonneg _ (hs.sublist (List.dropWhile_sublist p))
      (fun s hx => hp s ((List.dropWhile_sublist p).subset hx))
  linarith

theorem trapezoid_dropWhile_le (p : ℚ × ℚ → Bool) (l : List (ℚ × ℚ))
    (hs : l.Pairwise (fun a b => a.1 ≤ b.1)) (hp : ∀ s ∈ l, 0 ≤ s.2) :
    trapezoid (l.dropWhile p) ≤ trapezoid l := by
  have happ := trapezoid_append_ge (l.dropWhile p) (l.takeWhile p)
    (by rw [List.takeWhile_append_dropWhile]; exact hs)
    (by rw [List.takeWhile_append_dropWhile]; exact hp)
  rw [List.takeWhile_append_dropWhile] at happ
  have ht : 0 ≤ trapezoid (l.takeWhile p) :=
    trapezoid_nonneg _ (hs.sublist (List.takeWhile_sublist p))
      (fun s hx => hp s ((List.takeWhile_sublist p).subset hx))
  linarith

theorem trapezoid_bandSelect_le (lo hi : ℚ) (l : List (ℚ × ℚ))
    (hs : l.Pairwise (fun a b => a.1 ≤ b.1)) (hp : ∀ s ∈ l, 0 ≤ s.2) :
    trapezoid (bandSelect l lo hi) ≤ trapezoid l := by
  rw [bandSelect_eq_take_drop lo hi l hs]
  have h1 := trapezoid_takeWhile_le (fun s => decide (s.1 < hi))
    (l.dropWhile (fun s => decide (s.1 < lo)))
    (hs.sublist (List.dropWhile_sublist _))
    (fun s hx => hp s ((List.dropWhile_sublist _).subset hx))
  have h2 := trapezoid_dropWhile_le (fun s => decide (s.1 < lo)) l hs hp
  linarith

theorem bandSelect_take_of_le (lo hi c : ℚ) (l : List (ℚ × ℚ))
    (hs : l.Pairwise (fun a b => a.1 ≤ b.1)) (hc : hi ≤ c) :
    bandSelect l lo hi =
      bandSelect (l.takeWhile (fun s => decide (s.1 < c))) lo hi := by
  conv_lhs =>
    rw [← List.takeWhile_append_dropWhile (fun s => decide (s.1 < c)) l]
  unfold bandSelect
  rw [List.filter_append]
  have hnil : (l.dropWhile (fun s => decide (s.1 < c))).filter
      (fun s => decide (lo ≤ s.1 ∧ s.1 < hi)) = [] := by
    apply List.filter_eq_nil_iff.mpr
    intro x hx
    have hcx : c ≤ x.1 := mem_dropWhile_ge c l hs x hx
    simp only [decide_eq_true_eq]
    intro hcon
    linarith [hcon.2]
  rw [hnil, List.append_nil]

theorem mem_takeWhile_lt (c : ℚ) :
    ∀ l : List (ℚ × ℚ),
      ∀ x ∈ l.takeWhile (fun s => decide (s.1 < c)), x.1 < c := by
  intro l
  induction l with
  | nil => intro x hx; simp at hx
  | cons a rest ih =>
    intro x hx
    by_cases h : a.1 < c
    · rw [List.takeWhile_cons, if_pos (decide_eq_true h)] at hx
      rcases List.mem_cons.mp hx with hx | hx
      · exact hx ▸ h
      · exact ih x hx
    · rw [List.takeWhile_cons, if_neg (by simp [decide_eq_false h])] at hx
      simp at hx

theorem bandSelect_drop_of_le (lo hi c : ℚ) (l : List (ℚ × ℚ))
    (hc : c ≤ lo) :
    bandSelect l lo hi =
      bandSelect (l.dropWhile (fun s => decide (s.1 < c))) lo hi := by
  conv_lhs =>
    rw [← List.takeWhile_append_dropWhile (fun s => decide (s.1 < c)) l]
  unfold bandSelect
  rw [List.filter_append]
  have hnil : (l.takeWhile (fun s => decide (s.1 < c))).filter
      (fun s => decide (lo ≤ s.1 ∧ s.1 < hi)) = [] := by
    apply List.filter_eq_nil_iff.mpr
    intro x hx
    have hxc : x.1 < c := mem_takeWhile_lt c l x hx
    simp only [decide_eq_true_eq]
    intro hcon
    linarith [hcon.1]
  rw [hnil, List.nil_append]

theorem two_band_trapezoid_le (lo₁ hi₁ lo₂ hi₂ : ℚ) (l : List (ℚ × ℚ))
    (hs : l.Pairwise (fun a b => a.1 ≤ b.1)) (hp : ∀ s ∈ l, 0 ≤ s.2)
    (h12 : hi₁ ≤ lo₂) :
    trapezoid (bandSelect l lo₁ hi₁) + trapezoid (bandSelect l lo₂ hi₂) ≤
      trapezoid l := by
  have hts : (l.takeWhile (fun s => decide (s.1 < hi₁))).Pairwise
      (fun a b => a.1 ≤ b.1) := hs.sublist (List.takeWhile_sublist _)
  have hds : (l.dropWhile (fun s => decide (s.1 < hi₁))).Pairwise
      (fun a b => a.1 ≤ b.1) := hs.sublist (List.dropWhile_sublist _)
  have htp : ∀ s ∈ l.takeWhile (fun s => decide (s.1 < hi₁)), 0 ≤ s.2 :=
    fun s hx => hp s ((List.takeWhile_sublist _).subset hx)
  have hdp : ∀ s ∈ l.dropWhile (fun s => decide (s.1 < hi₁)), 0 ≤ s.2 :=
    fun s hx => hp s ((List.dropWhile_sublist _).subset hx)
  have e1 := bandSelect_take_of_le lo₁ hi₁ hi₁ l hs le_rfl
  have e2 := bandSelect_drop_of_le lo₂ hi₂ hi₁ l h12
  rw [e1, e2]
  have b1 := trapezoid_bandSelect_le lo₁ hi₁ _ hts htp
  have b2 := trapezoid_bandSelect_le lo₂ hi₂ _ hds hdp
  have happ := trapezoid_append_ge
    (l.dropWhile (fun s => decide (s.1 < hi₁)))
    (l.takeWhile (fun s => decide (s.1 < hi₁)))
    (by rw [List.takeWhile_append_dropWhile]; exact hs)
    (by rw [List.takeWhile_append_dropWhile]; exact hp)
  rw [List.takeWhile_append_dropWhile] at happ
  linarith

theorem three_band_trapezoid_le (lo₁ hi₁ lo₂ hi₂ lo₃ hi₃ : ℚ)
    (l : List (ℚ × ℚ))
    (hs : l.Pairwise (fun a b => a.1 ≤ b.1)) (hp : ∀ s ∈ l, 0 ≤ s.2)
    (h12 : hi₁ ≤ lo₂) (h2 : lo₂ ≤ hi₂) (h23 : hi₂ ≤ lo₃) :
    trapezoid (bandSelect l lo₁ hi₁) + trapezoid (bandSelect l lo₂ hi₂) +
      trapezoid (bandSelect l lo₃ hi₃) ≤ trapezoid l := by
  have hts : (l.takeWhile (fun s => decide (s.1 < hi₁))).Pairwise
      (fun a b => a.1 ≤ b.1) := hs.sublist (List.takeWhile_sublist _)
  have hds : (l.dropWhile (fun s => decide (s.1 < hi₁))).Pairwise
      (fun a b => a.1 ≤ b.1) := hs.sublist (List.dropWhile_sublist _)
  have htp : ∀ s ∈ l.takeWhile (fun s => decide (s.1 < hi₁)), 0 ≤ s.2 :=
    fun s hx => hp s ((List.takeWhile_sublist _).subset hx)
  have hdp : ∀ s ∈ l.dropWhile (fun s => decide (s.1 < hi₁)), 0 ≤ s.2 :=
    fun s hx => hp s ((List.dropWhile_sublist _).subset hx)
  have e1 := bandSelect_take_of_le lo₁ hi₁ hi₁ l hs le_rfl
  have e2 := bandSelect_drop_of_le lo₂ hi₂ hi₁ l h12
  have e3 := bandSelect_drop_of_le lo₃ hi₃ hi₁ l
    (le_trans h12 (le_trans h2 h23))
  rw [e1, e2, e3]
  have b1 := trapezoid_bandSelect_le lo₁ hi₁ _ hts htp
  have b23 := two_band_trapezoid_le lo₂ hi₂ lo₃ hi₃ _ hds hdp h23
  have happ := trapezoid_append_ge
    (l.dropWhile (fun s => decide (s.1 < hi₁)))
    (l.takeWhile (fun s => decide (s.1 < hi₁)))
    (by rw [List.takeWhile_append_dropWhile]; exact hs)
    (by rw [List.takeWhile_append_dropWhile]; exact hp)
  rw [List.takeWhile_append_dropWhile] at happ
  linarith

theorem bandSelect_filter20 (lo hi : ℚ) (l : List (ℚ × ℚ))
    (h20 : (20 : ℚ) ≤ lo) :
    bandSelect (l.filter (fun s => decide ((20 : ℚ) ≤ s.1))) lo hi =
      bandSelect l lo hi := by
  unfold bandSelect
  rw [List.filter_filter]
  apply List.filter_congr
  intro a _
  by_cases h : lo ≤ a.1 ∧ a.1 < hi
  · simp [h, le_trans h20 h.1]
  · simp [h]

theorem summarize_bands_pct_sum (spec : List (ℚ × ℚ)) (air_lo air_hi : ℚ) :
    ((summarize_bands spec air_lo air_hi).1.map (fun b => b.pct)).sum =
      100 * band_energy spec 60 250 / (summarize_bands spec air_lo air_hi).2 +
      100 * band_energy spec 400 1500 /
        (summarize_bands spec air_lo air_hi).2 +
      100 * band_energy spec air_lo air_hi /
        (summarize_bands spec air_lo air_hi).2 := by
  simp [summarize_bands]
  ring

theorem summarize_bands_snd (spec : List (ℚ × ℚ)) (air_lo air_hi : ℚ) :
    (summarize_bands spec air_lo air_hi).2 =
      if trapezoid (spec.filter (fun s => decide ((20 : ℚ) ≤ s.1))) ≤ 0
      then 1 / 10 ^ 12
      else trapezoid (spec.filter (fun s => decide ((20 : ℚ) ≤ s.1))) := rfl

/-- C2 amended: for a frequency-sorted spectrum with non-negative powers,
the `pct` values summed over the three bands are at most 100 (exactly, in
exact arithmetic) provided the configurable overtones band lies at or above
20 Hz and does not overlap the hard-coded Bass (60–250) and Formant
(400–1500) bands.  The unamended claim — every valid band set — is false:
see the counterexample, where the overtones band overlaps Bass. -/
theorem pct_sum_le_100_of_disjoint (spec : List (ℚ × ℚ))
    (air_lo air_hi : ℚ)
    (hs : spec.Pairwise (fun a b => a.1 ≤ b.1))
    (hp : ∀ s ∈ spec, 0 ≤ s.2)
    (h20 : (20 : ℚ) ≤ air_lo) (hwf : air_lo ≤ air_hi)
    (hdisj : air_hi ≤ 60 ∨ (250 ≤ air_lo ∧ air_hi ≤ 400) ∨ 1500 ≤ air_lo) :
    ((summarize_bands spec air_lo air_hi).1.map (fun b => b.pct)).sum ≤
      100 := by
  have hm_s : (spec.filter (fun s => decide ((20 : ℚ) ≤ s.1))).Pairwise
      (fun a b => a.1 ≤ b.1) := hs.sublist (List.filter_sublist _)
  have hm_p : ∀ s ∈ spec.filter (fun s => decide ((20 : ℚ) ≤ s.1)),
      0 ≤ s.2 := fun s hx => hp s (List.mem_of_mem_filter hx)
  have eb : band_energy spec 60 250 = trapezoid
      (bandSelect (spec.filter (fun s => decide ((20 : ℚ) ≤ s.1))) 60 250) := by
    rw [band_energy_eq_trapezoid, ← bandSelect_filter20 60 250 spec (by norm_num)]
  have ef : band_energy spec 400 1500 = trapezoid
      (bandSelect (spec.filter (fun s => decide ((20 : ℚ) ≤ s.1))) 400 1500) := by
    rw [band_energy_eq_trapezoid,
      ← bandSelect_filter20 400 1500 spec (by norm_num)]
  have ea : band_energy spec air_lo air_hi = trapezoid
      (bandSelect (spec.filter (fun s => decide ((20 : ℚ) ≤ s.1)))
        air_lo air_hi) := by
    rw [band_energy_eq_trapezoid,
      ← bandSelect_filter20 air_lo air_hi spec h20]
  have key : band_energy spec 60 250 + band_energy spec 400 1500 +
      band_energy spec air_lo air_hi ≤
      trapezoid (spec.filter (fun s => decide ((20 : ℚ) ≤ s.1))) := by
    rw [eb, ef, ea]
    rcases hdisj with h | ⟨ha, hb⟩ | h
    · have := three_band_trapezoid_le air_lo air_hi 60 250 400 1500 _
        hm_s hm_p h (by norm_num) (by norm_num)
      linarith
    · have := three_band_trapezoid_le 60 250 air_lo air_hi 400 1500 _
        hm_s hm_p ha hwf hb
      linarith
    · have := three_band_trapezoid_le 60 250 400 1500 air_lo air_hi _
        hm_s hm_p (by norm_num) (by norm_num) h
      linarith
  have nb : 0 ≤ band_energy spec 60 250 := by
    rw [eb]
    exact trapezoid_nonneg _ (hm_s.sublist (List.filter_sublist _))
      (fun s hx => hm_p s ((List.filter_sublist _).subset hx))
  have nf : 0 ≤ band_energy spec 400 1500 := by
    rw [ef]
    exact trapezoid_nonneg _ (hm_s.sublist (List.filter_sublist _))
      (fun s hx => hm_p s ((List.filter_sublist _).subset hx))
  have na : 0 ≤ band_energy spec air_lo air_hi := by
    rw [ea]
    exact trapezoid_nonneg _ (hm_s.sublist (List.filter_sublist _))
      (fun s hx => hm_p s ((List.filter_sublist _).subset hx))
  by_cases h0 :
      trapezoid (spec.filter (fun s => decide ((20 : ℚ) ≤ s.1))) ≤ 0
  · have hb0 : band_energy spec 60 250 = 0 := by linarith
    have hf0 : band_energy spec 400 1500 = 0 := by linarith
    have ha0 : band_energy spec air_lo air_hi = 0 := by linarith
    rw [summarize_bands_pct_sum, hb0, hf0, ha0]
    norm_num
  · have hTpos : 0 <
        trapezoid (spec.filter (fun s => decide ((20 : ℚ) ≤ s.1))) :=
      lt_of_not_le h0
    rw [summarize_bands_pct_sum, summarize_bands_snd, if_neg h0,
      div_add_div_same, div_add_div_same, div_le_iff₀ hTpos]
    linarith

theorem pct_sum_le_100_of_disjoint_witness :
    ((summarize_bands [((50 : ℚ), 3), (100, 2), (3000, 7)] 2000 8000).1.map
      (fun b => b.pct)).sum ≤ 100 :=
  pct_sum_le_100_of_disjoint [((50 : ℚ), 3), (100, 2), (3000, 7)] 2000 8000
    (by norm_num) (by norm_num) (by norm_num) (by norm_num)
    (Or.inr (Or.inr (by norm_num)))

/-! Helper lemmas about `demean`. -/

theorem sum_map_sub_const (c : ℝ) :
    ∀ l : List ℝ, (l.map (fun v => v - c)).sum = l.sum - l.length * c := by
  intro l
  induction l with
  | nil => simp
  | cons a l ih =>
    simp [ih]
    ring

theorem demean_length (y : List ℝ) : (demean y).length = y.length := by
  simp [demean]

theorem demean_sum (y : List ℝ) : (demean y).sum = 0 := by
  unfold demean
  rw [sum_map_sub_const]
  rcases eq_or_ne y.length 0 with h0 | h0
  · simp [List.length_eq_zero.mp h0]
  · have hne : (y.length : ℝ) ≠ 0 := Nat.cast_ne_zero.mpr h0
    field_simp

/-- C5 fails as stated: `main` performs no emptiness check between decode
and PSD.  On an empty decoded sample sequence the analysis portion reports
no error at all — in particular no `EmptySignal` — and the PSD computation
is reached: the run's spectrum is exactly `compute_psd`'s output on the
empty signal. -/
theorem empty_signal_reaches_psd :
    (run_analysis none ([] : List ℝ) 44100 2000 8000).isOk = true ∧
    (run_analysis none ([] : List ℝ) 44100 2000 8000).map
      AnalysisOutput.freqs = Except.ok (compute_psd none [] 44100).1 :=
  ⟨rfl, rfl⟩

/-- C5 amended: the analysis portion of `main` (lines 182–187) contains no
emptiness check: for every decoded sample sequence — the empty one
included — no error is ever reported, and the spectrum carried in the
result is `compute_psd`'s output, i.e. the PSD computation is always
reached. -/
theorem run_analysis_never_errors (welch : Option WelchFn) (y : List ℝ)
    (sr air_lo air_hi : ℝ) :
    (run_analysis welch y sr air_lo air_hi).isOk = true ∧
    (run_analysis welch y sr air_lo air_hi).map AnalysisOutput.freqs =
      Except.ok (compute_psd welch y sr).1 :=
  ⟨rfl, rfl⟩

/-- C8: on the primary path `compute_psd` first demeans the signal (the
demeaned samples sum to exactly 0) and hands the external Welch estimator
that demeaned signal with `nperseg = max(min(n, 8192), 256)`,
`noverlap = nperseg / 2`, a Hann window, constant detrending and
"spectrum" scaling, returning its result unchanged; a signal shorter than
256 samples is still dispatched to the primary path, with
`nperseg = 256`. -/
theorem primary_path_welch_arguments (w : WelchFn) (y : List ℝ) (sr : ℝ) :
    compute_psd (some w) y sr = w (demean y) sr (welchArgs y.length) ∧
    (welchArgs y.length).nperseg = max (min y.length 8192) 256 ∧
    (welchArgs y.length).noverlap = (welchArgs y.length).nperseg / 2 ∧
    (welchArgs y.length).window = WindowKind.hann ∧
    (welchArgs y.length).detrend = DetrendKind.constant ∧
    (welchArgs y.length).scaling = ScalingKind.spectrum ∧
    (demean y).sum = 0 ∧
    (y.length < 256 → (welchArgs y.length).nperseg = 256) := by
  refine ⟨?_, rfl, rfl, rfl, rfl, rfl, demean_sum y, ?_⟩
  · show w (demean y) sr (welchArgs (demean y).length) =
      w (demean y) sr (welchArgs y.length)
    rw [demean_length]
  · intro h
    simp only [welchArgs]
    omega

theorem primary_path_welch_arguments_witness :
    compute_psd (some (fun _ _ _ => ([], []))) [(1 : ℝ), 2] 1 =
      (fun _ _ _ => (([] : List ℝ), ([] : List ℝ)))
        (demean [(1 : ℝ), 2]) 1 (welchArgs [(1 : ℝ), 2].length) ∧
    (welchArgs [(1 : ℝ), 2].length).nperseg = 256 := by
  have h := primary_path_welch_arguments (fun _ _ _ => ([], []))
    [(1 : ℝ), 2] 1
  exact ⟨h.1, h.2.2.2.2.2.2.2 (by norm_num)⟩

/-- C9: decoding a 16-bit PCM stream through the scientific-format reader
(divide by 32767, the largest `int16`) and through the raw-PCM fallback
(divide by 32768) yields sample arrays within `1e-3` RMS of each other:
every elementwise difference is at most `1/32767 < 1e-3` in magnitude. -/
theorem pcm16_paths_rms_close (l : List ℤ)
    (h : ∀ v ∈ l, -32768 ≤ v ∧ v ≤ 32767) :
    rmsDiff l ≤ 1 / 1000 := by
  have hterm : ∀ x ∈ l.map (fun v => (scipyDecode16 v - waveDecode16 v) ^ 2),
      x ≤ ((1 : ℝ) / 32767) ^ 2 := by
    intro x hx
    rcases List.mem_map.mp hx with ⟨v, hv, rfl⟩
    have hlo : (-32768 : ℝ) ≤ (v : ℝ) := by exact_mod_cast (h v hv).1
    have hhi : (v : ℝ) ≤ 32767 := by exact_mod_cast (h v hv).2
    have h1 : ((v : ℝ)) ^ 2 ≤ 32768 ^ 2 := by nlinarith
    have e : scipyDecode16 v - waveDecode16 v = (v : ℝ) / (32767 * 32768) := by
      unfold scipyDecode16 waveDecode16
      field_simp
      ring
    rw [e, div_pow, div_le_iff₀ (by positivity)]
    calc ((v : ℝ)) ^ 2 ≤ 32768 ^ 2 := h1
      _ = (1 / 32767) ^ 2 * (32767 * 32768) ^ 2 := by norm_num
  have hsum := List.sum_le_card_nsmul _ _ hterm
  rw [List.length_map] at hsum
  have hmean :
      (l.map (fun v => (scipyDecode16 v - waveDecode16 v) ^ 2)).sum /
        l.length ≤ ((1 : ℝ) / 32767) ^ 2 := by
    rcases Nat.eq_zero_or_pos l.length with h0 | h0
    · have hnil : l = [] := List.length_eq_zero.mp h0
      subst hnil
      simp
    · have hlen : (0 : ℝ) < l.length := by exact_mod_cast h0
      rw [div_le_iff₀ hlen]
      calc (l.map (fun v => (scipyDecode16 v - waveDecode16 v) ^ 2)).sum ≤
          l.length • ((1 : ℝ) / 32767) ^ 2 := hsum
        _ = ((1 : ℝ) / 32767) ^ 2 * l.length := by
            rw [nsmul_eq_mul]; ring
  calc rmsDiff l ≤ Real.sqrt (((1 : ℝ) / 32767) ^ 2) := by
        unfold rmsDiff
        exact Real.sqrt_le_sqrt hmean
    _ = 1 / 32767 := Real.sqrt_sq (by norm_num)
    _ ≤ 1 / 1000 := by norm_num

theorem pcm16_paths_rms_close_witness :
    rmsDiff [(32767 : ℤ), -32768, 0] ≤ 1 / 1000 :=
  pcm16_paths_rms_close [(32767 : ℤ), -32768, 0] (by decide)

/-! Lemmas for C7: the doubling loop computes the least power of two ≥ n,
and the function-style zero-padded FFT input agrees with the explicit
padded windowed list. -/

theorem nfftLoop_exit (n j : ℕ) (hle : n ≤ 2 ^ j)
    (hinv : ∀ i < j, 2 ^ i < n) : nfftLoop n (2 ^ j) = nextPow2 n := by
  rw [nfftLoop, dif_neg]
  · have hfind : j =
        Nat.find (⟨n, Nat.le_of_lt (Nat.lt_two_pow n)⟩ : ∃ k, n ≤ 2 ^ k) :=
      ((Nat.find_eq_iff
          (⟨n, Nat.le_of_lt (Nat.lt_two_pow n)⟩ : ∃ k, n ≤ 2 ^ k)).mpr
        ⟨hle, fun i hi => not_le.mpr (hinv i hi)⟩).symm
    rw [nextPow2, ← hfind]
  · intro hcon
    exact absurd hcon.1 (not_lt.mpr hle)

theorem nfftLoop_eq_nextPow2_aux :
    ∀ d n j : ℕ, n - 2 ^ j ≤ d → (∀ i < j, 2 ^ i < n) →
      nfftLoop n (2 ^ j) = nextPow2 n := by
  intro d
  induction d with
  | zero =>
    intro n j hd hinv
    exact nfftLoop_exit n j (by omega) hinv
  | succ d ih =>
    intro n j hd hinv
    by_cases hc : 2 ^ j < n
    · rw [nfftLoop, dif_pos ⟨hc, Nat.two_pow_pos j⟩]
      have h2 : 2 * 2 ^ j = 2 ^ (j + 1) := by ring
      rw [h2]
      apply ih n (j + 1)
      · have hone : 1 ≤ 2 ^ j := Nat.one_le_two_pow
        have hsplit : (2 : ℕ) ^ (j + 1) = 2 ^ j + 2 ^ j := by ring
        omega
      · intro i hi
        rcases Nat.lt_succ_iff_lt_or_eq.mp hi with hi | hi
        · exact hinv i hi
        · exact hi ▸ hc
    · exact nfftLoop_exit n j (not_lt.mp hc) hinv

theorem n_fft_eq_nextPow2 (n : ℕ) : n_fft n = nextPow2 n := by
  have h := nfftLoop_eq_nextPow2_aux n n 0 (by omega) (by omega)
  simpa [n_fft] using h

theorem nextPow2_ge (n : ℕ) : n ≤ nextPow2 n := by
  unfold nextPow2
  exact Nat.find_spec
    (⟨n, Nat.le_of_lt (Nat.lt_two_pow n)⟩ : ∃ k, n ≤ 2 ^ k)

theorem nextPow2_min (n k : ℕ) (hk : n ≤ 2 ^ k) : nextPow2 n ≤ 2 ^ k := by
  unfold nextPow2
  exact Nat.pow_le_pow_right (by norm_num) (Nat.find_le hk)

theorem nextPow2_pos (n : ℕ) : 0 < nextPow2 n := by
  unfold nextPow2
  exact Nat.two_pow_pos _

theorem windowedList_length (y : List ℝ) :
    (windowedList y).length = y.length := by
  simp [windowedList]

theorem paddedWindowed_length (y : List ℝ) (N : ℕ) (h : y.length ≤ N) :
    (paddedWindowed y N).length = N := by
  simp [paddedWindowed, windowedList_length]
  omega

theorem paddedWindowed_getD (y : List ℝ) (N m : ℕ) :
    (paddedWindowed y N).getD m 0 = winSig y m := by
  by_cases hm : m < y.length
  · rw [paddedWindowed,
      List.getD_append _ _ _ _ (by rw [windowedList_length]; exact hm)]
    rw [List.getD_eq_getElem?_getD]
    simp [windowedList, List.getElem?_range hm, winSig]
  · have hy : y.getD m 0 = 0 :=
      List.getD_eq_default _ _ (le_of_not_lt hm)
    have hws : winSig y m = 0 := by
      unfold winSig
      rw [hy, zero_mul]
    rw [hws, paddedWindowed,
      List.getD_append_right _ _ _ _ (by rw [windowedList_length]; omega)]
    rw [List.getD_eq_getElem?_getD, List.getElem?_replicate]
    split <;> rfl

theorem dftBin_paddedWindowed (y : List ℝ) (N k : ℕ) (h : y.length ≤ N) :
    dftBin (paddedWindowed y N) k = rfftBin (winSig y) N k := by
  unfold dftBin rfftBin
  rw [paddedWindowed_length y N h]
  apply Finset.sum_congr rfl
  intro m _
  rw [paddedWindowed_getD]

/-- C7: the fallback estimator follows the documented recipe: the FFT
length the doubling loop computes is exactly the smallest power of two
`≥ n` (both as the literal minimisation `nextPow2` and through its
characteristic properties), and the whole output — frequencies and powers
— equals the recipe "zero-pad the Hann-windowed signal to that length,
take the one-sided real FFT, square magnitudes, divide by
`(Σ win² · sr)`" applied to an explicit padded list. -/
theorem fallback_matches_documented_recipe (y : List ℝ) (sr : ℝ)
    (_h : 1 ≤ y.length) :
    compute_psd_fallback y sr = claim_fallback y sr ∧
    n_fft y.length = nextPow2 y.length ∧
    y.length ≤ n_fft y.length ∧
    (∀ k, y.length ≤ 2 ^ k → n_fft y.length ≤ 2 ^ k) := by
  have hN := n_fft_eq_nextPow2 y.length
  refine ⟨?_, hN, hN ▸ nextPow2_ge y.length,
    fun k hk => hN ▸ nextPow2_min _ k hk⟩
  simp only [compute_psd_fallback, claim_fallback, hN]
  rw [Prod.mk.injEq]
  constructor
  · rfl
  · apply List.map_congr_left
    intro k _
    unfold fallback_Pxx
    rw [hN, ← dftBin_paddedWindowed y _ k (nextPow2_ge y.length)]

theorem fallback_matches_documented_recipe_witness :
    compute_psd_fallback [(1 : ℝ)] 4 = claim_fallback [(1 : ℝ)] 4 ∧
    n_fft [(1 : ℝ)].length = nextPow2 [(1 : ℝ)].length := by
  have h := fallback_matches_documented_recipe [(1 : ℝ)] 4 (by simp)
  exact ⟨h.1, h.2.1⟩

/-! Lemmas for C6: the Hann window has positive energy at every length
except 2, where it is identically zero. -/

theorem hanning_nonneg (M i : ℕ) : 0 ≤ hanning M i := by
  unfold hanning
  split_ifs with h
  · norm_num
  · nlinarith [Real.cos_le_one (2 * Real.pi * i / ((M : ℝ) - 1))]

theorem winSumSq_nonneg (n : ℕ) : 0 ≤ winSumSq n :=
  Finset.sum_nonneg fun _ _ => sq_nonneg _

theorem winSumSq_one : winSumSq 1 = 1 := by
  simp [winSumSq, hanning]

theorem hanning_pos_of_three_le (n : ℕ) (h3 : 3 ≤ n) : 0 < hanning n 1 := by
  unfold hanning
  rw [if_neg (by omega)]
  have hncast : (3 : ℝ) ≤ (n : ℝ) := by exact_mod_cast h3
  have harg : 2 * Real.pi * ((1 : ℕ) : ℝ) / ((n : ℝ) - 1) =
      2 * Real.pi / ((n : ℝ) - 1) := by
    norm_num
  rw [harg]
  have hx0 : 0 < 2 * Real.pi / ((n : ℝ) - 1) :=
    div_pos (by positivity) (by linarith)
  have hxpi : 2 * Real.pi / ((n : ℝ) - 1) ≤ Real.pi := by
    rw [div_le_iff₀ (by linarith)]
    nlinarith [Real.pi_pos,
      mul_nonneg Real.pi_pos.le (show (0 : ℝ) ≤ (n : ℝ) - 3 by linarith)]
  have hcos : Real.cos (2 * Real.pi / ((n : ℝ) - 1)) < 1 := by
    have h0m : (0 : ℝ) ∈ Set.Icc 0 Real.pi := ⟨le_refl 0, Real.pi_pos.le⟩
    have hxm : 2 * Real.pi / ((n : ℝ) - 1) ∈ Set.Icc 0 Real.pi :=
      ⟨hx0.le, hxpi⟩
    have h := Real.strictAntiOn_cos h0m hxm hx0
    simpa using h
  linarith

theorem winSumSq_pos (n : ℕ) (h1 : 1 ≤ n) (h2 : n ≠ 2) : 0 < winSumSq n := by
  rcases eq_or_ne n 1 with e | e
  · rw [e, winSumSq_one]
    norm_num
  · have h3 : 3 ≤ n := by omega
    unfold winSumSq
    apply Finset.sum_pos'
    · intro i _
      exact sq_nonneg _
    · exact ⟨1, Finset.mem_range.mpr (by omega),
        pow_pos (hanning_pos_of_three_le n h3) 2⟩

theorem winSumSq_two : winSumSq 2 = 0 := by
  unfold winSumSq hanning
  rw [Finset.sum_range_succ, Finset.sum_range_one]
  norm_num [Real.cos_two_pi]

/-- C6 amended: for every non-empty buffer whose length is not exactly 2,
the fallback spectrum is well-formed — every power bin is a defined (no
NaN/Inf: the scaling denominator is strictly positive), non-negative real;
the first frequency is 0; no frequency exceeds `sr/2` — and the primary
path returns the external Welch estimate unchanged, so it satisfies the
contract precisely when that external estimator does.  At length exactly 2
the fallback's Hann window is identically zero and the power bins are
`0/0`: see the counterexample. -/
theorem psd_contract (w : WelchFn) (y : List ℝ) (sr : ℝ)
    (h1 : 1 ≤ y.length) (h2 : y.length ≠ 2) (hsr : 0 < sr) :
    (∀ k, ∃ v, fallback_Pxx_ieee (demean y) sr k = some v ∧ 0 ≤ v) ∧
    (compute_psd none y sr).1.head? = some 0 ∧
    (∀ f ∈ (compute_psd none y sr).1, f ≤ sr / 2) ∧
    (∀ p ∈ (compute_psd none y sr).2, 0 ≤ p) ∧
    compute_psd (some w) y sr = w (demean y) sr (welchArgs y.length) := by
  have hlen := demean_length y
  have hden : 0 < winSumSq (demean y).length * sr := by
    rw [hlen]
    exact mul_pos (winSumSq_pos y.length h1 h2) hsr
  have hcp : compute_psd none y sr = compute_psd_fallback (demean y) sr := rfl
  refine ⟨?_, ?_, ?_, ?_, ?_⟩
  · intro k
    refine ⟨Complex.normSq
      (rfftBin (winSig (demean y)) (n_fft (demean y).length) k) /
      (winSumSq (demean y).length * sr), ?_, ?_⟩
    · unfold fallback_Pxx_ieee finiteDiv
      rw [if_neg (ne_of_gt hden)]
    · exact div_nonneg (Complex.normSq_nonneg _) hden.le
  · rw [hcp]
    unfold compute_psd_fallback
    rw [List.head?_map, List.range_succ_eq_map]
    simp [fallback_freq]
  · intro f hf
    rw [hcp] at hf
    unfold compute_psd_fallback at hf
    rcases List.mem_map.mp hf with ⟨k, hk, rfl⟩
    have hk2 : k ≤ n_fft (demean y).length / 2 := by
      have := List.mem_range.mp hk
      omega
    have hNpos : 0 < n_fft (demean y).length := by
      rw [n_fft_eq_nextPow2]
      exact nextPow2_pos _
    have hNr : (0 : ℝ) < (n_fft (demean y).length : ℝ) := by
      exact_mod_cast hNpos
    unfold fallback_freq
    rw [div_le_iff₀ hNr]
    have hkr : (k : ℝ) ≤ (n_fft (demean y).length : ℝ) / 2 := by
      calc (k : ℝ) ≤ ((n_fft (demean y).length / 2 : ℕ) : ℝ) := by
            exact_mod_cast hk2
        _ ≤ (n_fft (demean y).length : ℝ) / 2 := Nat.cast_div_le
    calc (k : ℝ) * sr ≤ (n_fft (demean y).length : ℝ) / 2 * sr :=
          mul_le_mul_of_nonneg_right hkr hsr.le
      _ = sr / 2 * (n_fft (demean y).length : ℝ) := by ring
  · intro p hp
    rw [hcp] at hp
    unfold compute_psd_fallback at hp
    rcases List.mem_map.mp hp with ⟨k, _, rfl⟩
    unfold fallback_Pxx
    exact div_nonneg (Complex.normSq_nonneg _) hden.le
  · show w (demean y) sr (welchArgs (demean y).length) =
      w (demean y) sr (welchArgs y.length)
    rw [hlen]

theorem psd_contract_witness :
    (∀ k, ∃ v, fallback_Pxx_ieee (demean [(1 : ℝ), 0, -1]) 2 k = some v ∧
      0 ≤ v) ∧
    (compute_psd none [(1 : ℝ), 0, -1] 2).1.head? = some 0 := by
  have h := psd_contract (fun _ _ _ => ([], [])) [(1 : ℝ), 0, -1] 2
    (by simp) (by simp) (by norm_num)
  exact ⟨h.1, h.2.1⟩

/-- C6 fails as stated at buffers of length exactly 2: `np.hanning(2)` is
identically zero, so the fallback's scaling denominator
`np.sum(win**2) * sr` is exactly 0 and NumPy's `0/0` division yields NaN
power values — not non-negative reals.  `demean` maps `[1, -1]` to itself,
so `compute_psd` on the two-sample buffer `[1, -1]` reaches exactly this
division. -/
theorem fallback_power_nan_at_length_two :
    winSumSq 2 = 0 ∧
    demean [(1 : ℝ), -1] = [(1 : ℝ), -1] ∧
    fallback_Pxx_ieee [(1 : ℝ), -1] 100 0 = none := by
  refine ⟨winSumSq_two, ?_, ?_⟩
  · norm_num [demean]
  · unfold fallback_Pxx_ieee finiteDiv
    rw [show ([(1 : ℝ), -1].length) = 2 from rfl, winSumSq_two]
    simp

/-- C2 fails as stated: the configurable overtones band may overlap the
hard-coded Bass band, in which case the same energy is counted twice and
the `pct` sum exceeds `100` by far more than the claimed `1e-6` tolerance.
Here the overtones band is set to `(60, 250)`, duplicating Bass, on the
spectrum `f = [20, 100, 200]`, `Pxx = [0, 1, 1]`: the sum is
`1000/7 ≈ 142.86`. -/
theorem pct_sum_exceeds_100_overlapping_air :
    ((summarize_bands [((20 : ℚ), 0), (100, 1), (200, 1)] 60 250).1.map
      (fun b => b.pct)).sum > 100 + 1 / 1000000 := by
  norm_num [summarize_bands, band_energy_eq_trapezoid, bandSelect,
    trapezoid, List.filter_cons, List.filter_nil]

end Overtone
